import Mathlib

/-!
Shallow embedding of `src/include/fibre/introspection.hpp`: the
`PropertyInfo` / `TypeInfo` descriptor tables, the type-erased
`Introspectable` handle with its dotted-path traversal `get_child`, and the
string get/set dispatch together with the read-write leaf adapter
`FibrePropertyTypeInfo<Property<T>>`.

Bytes are natural numbers; the null terminator is the byte `0` and the path
separator `'.'` is the byte `46`.  C strings (property names) are modelled by
the list of their bytes before the terminator.  Side effects on underlying
application values are made observable by threading an abstract world type
`W` through the string hooks, and calls made by the traversal loop (table
lookups and getter invocations, both observable function calls in the
source) are recorded in a trace.
-/

namespace FibreIntrospection

/-- Bytes of buffers and C strings, as natural numbers (`0` is the null
terminator, `46` is the separator `'.'`). -/
abbrev Byte := Nat

/-- The fixed-size `storage_` byte array of `Introspectable`, modelled as a
byte list (its 12-byte capacity bound plays no role in the verified
behavior). -/
abbrev Storage := List Byte

/-- C `strncmp(s1, s2, n) == 0` for strings modelled as the list of their
bytes before the null terminator: reading past the end of a list yields the
terminator `0`.  Comparison stops at the first difference, at a null byte in
both strings, or after `n` bytes.  Mirrors `!strncmp(name, prop->name,
length)` in `TypeInfo::get_property_info`. -/
def strncmpEq (s1 s2 : List Byte) (n : Nat) : Bool :=
  match n, s1, s2 with
  | 0, _, _ => true
  | Nat.succ m, s1, s2 =>
    let c1 := s1.headD 0
    let c2 := s2.headD 0
    if c1 != c2 then false
    else if c1 == 0 then true
    else strncmpEq s1.tail s2.tail m

mutual

/-- One entry of a property table (`struct PropertyInfo`): the C string
`name` as its byte list, the repositioning `getter` acting on the handle
storage bytes, and the child's `type_info` (a null pointer is `none`).
The C++ getter receives the whole `Introspectable&`, but `get_child`
overwrites the `type_info_` field right after calling it, so only its action
on the storage bytes is observable. -/
inductive PropertyInfo (W : Type) : Type where
  | mk (name : List Byte) (getter : Storage → Storage)
       (type_info : Option (TypeInfo W)) : PropertyInfo W

/-- `class TypeInfo`: a property table plus the two virtual string hooks
`get_string` and `set_string`.  A hook receives the handle storage, the
buffer with its length, and the current world `W` (the underlying
application values reachable from the storage), and returns its boolean
result together with the possibly updated world. -/
inductive TypeInfo (W : Type) : Type where
  | mk (property_table : List (PropertyInfo W))
       (get_string_hook : Storage → List Byte → Nat → W → Bool × W)
       (set_string_hook : Storage → List Byte → Nat → W → Bool × W) : TypeInfo W

end

variable {W : Type}

/-- The `name` field of a `PropertyInfo`. -/
def PropertyInfo.name : PropertyInfo W → List Byte
  | .mk n _ _ => n

/-- The `getter` field of a `PropertyInfo`. -/
def PropertyInfo.getter : PropertyInfo W → (Storage → Storage)
  | .mk _ g _ => g

/-- The `type_info` field of a `PropertyInfo`. -/
def PropertyInfo.type_info : PropertyInfo W → Option (TypeInfo W)
  | .mk _ _ t => t

/-- The `property_table_` field of a `TypeInfo`. -/
def TypeInfo.property_table : TypeInfo W → List (PropertyInfo W)
  | .mk tbl _ _ => tbl

/-- The `get_string` virtual hook of a `TypeInfo`. -/
def TypeInfo.get_string_hook : TypeInfo W → (Storage → List Byte → Nat → W → Bool × W)
  | .mk _ g _ => g

/-- The `set_string` virtual hook of a `TypeInfo`. -/
def TypeInfo.set_string_hook : TypeInfo W → (Storage → List Byte → Nat → W → Bool × W)
  | .mk _ _ s => s

/-- The default virtual implementation of both string hooks in
`class TypeInfo`: `{ return false; }` — no effect on the world. -/
def defaultStringHook : Storage → List Byte → Nat → W → Bool × W :=
  fun _ _ _ w => (false, w)

/-- A plain (structural) `TypeInfo` that does not override the virtual
string hooks: it only carries a property table. -/
def TypeInfo.structural (table : List (PropertyInfo W)) : TypeInfo W :=
  .mk table defaultStringHook defaultStringHook

/-- The loop of `TypeInfo::get_property_info`: linear scan returning the
first entry `prop` with `!strncmp(name, prop->name, length)`. -/
def scanPropertyTable : List (PropertyInfo W) → List Byte → Nat → Option (PropertyInfo W)
  | [], _, _ => none
  | p :: ps, name, length =>
    if strncmpEq name p.name length then some p else scanPropertyTable ps name length

/-- `TypeInfo::get_property_info(name, length)`. -/
def TypeInfo.get_property_info (t : TypeInfo W) (name : List Byte) (length : Nat) :
    Option (PropertyInfo W) :=
  scanPropertyTable t.property_table name length

/-- `class Introspectable`: the fixed-size storage bytes plus the current
`type_info_` pointer (`none` = invalid handle). -/
structure Introspectable (W : Type) : Type where
  storage : Storage
  type_info : Option (TypeInfo W)

/-- `Introspectable::is_valid()`. -/
def Introspectable.is_valid (h : Introspectable W) : Bool :=
  h.type_info.isSome

/-- Observable calls made by the `get_child` loop: each iteration performs a
table `lookup` of the current token, and on a hit invokes the matched
entry's getter (`getterRun`). -/
inductive TraceEvent : Type where
  | lookup (token : List Byte) : TraceEvent
  | getterRun (token : List Byte) : TraceEvent
deriving DecidableEq

/-- One iteration body of the `get_child` loop, after the token has been
extracted: look the token up in the current `TypeInfo`'s table; on a hit run
the getter on the storage and move to the child's `type_info`
(`(*prop_info->getter)(current); current.type_info_ = prop_info->type_info;`),
on a miss invalidate the handle (`current.type_info_ = nullptr;`). -/
def traverseStep (current : Introspectable W) (t : TypeInfo W) (token : List Byte) :
    Introspectable W × List TraceEvent :=
  match t.get_property_info token token.length with
  | some prop =>
    (⟨prop.getter current.storage, prop.type_info⟩,
     [TraceEvent.lookup token, TraceEvent.getterRun token])
  | none => (⟨current.storage, none⟩, [TraceEvent.lookup token])

/-- The `while ((begin < end) && current.type_info_)` loop of
`Introspectable::get_child`, acting on the unconsumed path bytes
`remaining` (= the range `[begin, end)`).  The token is the range up to the
next `'.'` (`std::find(begin, end, '.')`), and the cursor then advances past
the separator, `begin = std::min(end, end_of_token + 1)` — i.e. the new
remainder is `(remaining.drop token.length).tail`. -/
def get_child_loop : Introspectable W → List Byte → Introspectable W × List TraceEvent
  | current, [] => (current, [])
  | current, b :: bs =>
    match current.type_info with
    | none => (current, [])
    | some t =>
      let token := (b :: bs).takeWhile (fun c => c != 46)
      let step := traverseStep current t token
      let rest := get_child_loop step.1 (((b :: bs).drop token.length).tail)
      (rest.1, step.2 ++ rest.2)
termination_by _ remaining => remaining.length
decreasing_by
  simp only [List.length_tail, List.length_drop, List.length_cons]
  omega

/-- The logical extent of the path seen by `get_child`: the bytes before
`std::find(path, path + length, '\0')`, i.e. the given length bound cut at
the first null byte. -/
def logicalPath (path : List Byte) (length : Nat) : List Byte :=
  (path.take length).takeWhile (fun b => b != 0)

/-- `Introspectable::get_child(path, length)` together with the trace of the
table lookups and getter invocations it performs. -/
def Introspectable.get_child_traced (h : Introspectable W) (path : List Byte)
    (length : Nat) : Introspectable W × List TraceEvent :=
  get_child_loop h (logicalPath path length)

/-- `Introspectable::get_child(path, length)`: the returned handle. -/
def Introspectable.get_child (h : Introspectable W) (path : List Byte) (length : Nat) :
    Introspectable W :=
  (h.get_child_traced path length).1

/-- `Introspectable::get_string`: `type_info_ && type_info_->get_string(...)`
— the short-circuit null check precedes the virtual hook call. -/
def Introspectable.get_string (h : Introspectable W) (buffer : List Byte)
    (length : Nat) (w : W) : Bool × W :=
  match h.type_info with
  | none => (false, w)
  | some t => t.get_string_hook h.storage buffer length w

/-- `Introspectable::set_string`: `type_info_ && type_info_->set_string(...)`
— the short-circuit null check precedes the virtual hook call. -/
def Introspectable.set_string (h : Introspectable W) (buffer : List Byte)
    (length : Nat) (w : W) : Bool × W :=
  match h.type_info with
  | none => (false, w)
  | some t => t.set_string_hook h.storage buffer length w

/-- `FibrePropertyTypeInfo<Property<T>>::set_string` (read-write leaf
adapter), over an abstract external parser: `from_string buffer length`
returns the parsed value of the enum-normalized underlying type `U`, or
`none` on parse failure (modelling the C `bool` result with out-parameter).
On failure it returns `false` and the temporary is discarded; on success it
calls `exchange(static_cast<T>(value))` — here `cast : U → V` — replacing
the wrapped property's value (the world), and returns `true`. -/
def rwSetStringHook {U V : Type} (from_string : List Byte → Nat → Option U)
    (cast : U → V) : Storage → List Byte → Nat → V → Bool × V :=
  fun _ buffer length v =>
    match from_string buffer length with
    | none => (false, v)
    | some value => (true, cast value)

/-- `FibrePropertyTypeInfo<Property<T>>::get_string` (leaf adapters): read
the wrapped value, normalize enums to the underlying type (`toU`), and
delegate formatting to the external `to_string`; the world is unchanged. -/
def leafGetStringHook {U V : Type} (to_string : U → List Byte → Nat → Bool)
    (toU : V → U) : Storage → List Byte → Nat → V → Bool × V :=
  fun _ buffer length v => (to_string (toU v) buffer length, v)

/-- The `FibrePropertyTypeInfo<Property<T>>` singleton (read-write leaf):
empty property table, with the overridden string hooks. -/
def FibrePropertyTypeInfoRW {U V : Type} (to_string : U → List Byte → Nat → Bool)
    (from_string : List Byte → Nat → Option U) (toU : V → U) (cast : U → V) :
    TypeInfo V :=
  .mk [] (leafGetStringHook to_string toU) (rwSetStringHook from_string cast)

/-! ### Unfolding lemmas for the traversal loop -/

theorem get_child_loop_nil (current : Introspectable W) :
    get_child_loop current [] = (current, []) := by
  simp [get_child_loop]

theorem get_child_loop_invalid (current : Introspectable W) (r : List Byte)
    (hc : current.type_info = none) : get_child_loop current r = (current, []) := by
  cases r with
  | nil => simp [get_child_loop]
  | cons b bs => simp [get_child_loop, hc]

/-- Dropping as many elements as `takeWhile` keeps is `dropWhile`. -/
theorem drop_length_takeWhile (p : Byte → Bool) (l : List Byte) :
    l.drop (l.takeWhile p).length = l.dropWhile p := by
  have h := List.drop_left (l.takeWhile p) (l.dropWhile p)
  rw [List.takeWhile_append_dropWhile] at h
  exact h

theorem get_child_loop_cons (current : Introspectable W) (t : TypeInfo W)
    (b : Byte) (bs : List Byte) (hc : current.type_info = some t) :
    get_child_loop current (b :: bs) =
      ((get_child_loop (traverseStep current t ((b :: bs).takeWhile (fun c => c != 46))).1
          (((b :: bs).dropWhile (fun c => c != 46)).tail)).1,
        (traverseStep current t ((b :: bs).takeWhile (fun c => c != 46))).2 ++
          (get_child_loop (traverseStep current t ((b :: bs).takeWhile (fun c => c != 46))).1
            (((b :: bs).dropWhile (fun c => c != 46)).tail)).2) := by
  rw [show ((b :: bs).dropWhile (fun c => c != 46)).tail
        = (((b :: bs).drop ((b :: bs).takeWhile (fun c => c != 46)).length).tail) by
      rw [drop_length_takeWhile]]
  simp [get_child_loop, hc]

/-- A null-free path of exact length passes through `logicalPath` unchanged. -/
theorem logicalPath_self (p : List Byte) (hp : ∀ b ∈ p, b ≠ 0) :
    logicalPath p p.length = p := by
  rw [logicalPath, List.take_length, List.takeWhile_eq_self_iff]
  intro x hx
  simpa using hp x hx

/-! ### Characterizing the `strncmp`-based lookup -/

/-- For a query whose first `n` bytes exist and are non-null (as is the case
for every token the traversal produces), `strncmp(q, s, n) == 0` says exactly
that the first `n` bytes of the stored name `s` exist and agree with the
query: a length-bounded prefix check, not an exact-length equality. -/
theorem strncmpEq_true_iff (n : Nat) (q s : List Byte) (hlen : n ≤ q.length)
    (hq : ∀ b ∈ q.take n, b ≠ 0) :
    strncmpEq q s n = true ↔ (n ≤ s.length ∧ q.take n = s.take n) := by
  induction n generalizing q s with
  | zero => simp [strncmpEq]
  | succ m ih =>
    cases q with
    | nil => simp at hlen
    | cons a q' =>
      have ha : a ≠ 0 := by
        apply hq
        simp [List.take_succ_cons]
      cases s with
      | nil =>
        simp only [strncmpEq, List.headD_cons, List.headD_nil, List.tail_cons]
        have : (a != 0) = true := by simpa using ha
        simp [this]
      | cons c s' =>
        simp only [strncmpEq, List.headD_cons, List.tail_cons]
        by_cases hac : a = c
        · subst hac
          have h0 : (a != a) = false := by simp
          have h1 : (a == 0) = false := by simpa using ha
          rw [h0, h1]
          simp only [Bool.false_eq_true, if_false]
          rw [ih q' s' (by simpa using hlen)
            (by intro b hb; exact hq b (by simp [List.take_succ_cons, hb]))]
          simp [List.take_succ_cons, Nat.succ_le_succ_iff]
        · have h0 : (a != c) = true := by simpa using hac
          rw [h0]
          simp only [if_true]
          constructor
          · intro h; cases h
          · rintro ⟨-, h⟩
            simp [List.take_succ_cons] at h
            exact absurd h.1 hac

/-- The linear scan of `get_property_info` returns the first entry whose
name passes the `strncmp` check, i.e. (for a well-formed query) the first
entry whose name has the query's first `n` bytes as a prefix. -/
theorem scanPropertyTable_eq_find (table : List (PropertyInfo W)) (q : List Byte)
    (n : Nat) (hlen : n ≤ q.length) (hq : ∀ b ∈ q.take n, b ≠ 0) :
    scanPropertyTable table q n =
      table.find? (fun p => decide (n ≤ p.name.length) && (q.take n == p.name.take n)) := by
  induction table with
  | nil => rfl
  | cons p ps ih =>
    have hchar := strncmpEq_true_iff n q p.name hlen hq
    simp only [scanPropertyTable]
    cases hm : strncmpEq q p.name n with
    | true =>
      rw [if_pos rfl, List.find?_cons_of_pos]
      rw [hm] at hchar
      simp only [true_iff] at hchar
      simp [hchar.1, hchar.2]
    | false =>
      rw [if_neg (by simp), ih, List.find?_cons_of_neg]
      rw [hm] at hchar
      simp only [Bool.false_eq_true, false_iff, not_and] at hchar
      simp only [Bool.and_eq_true, decide_eq_true_eq, beq_iff_eq, not_and]
      intro hle
      exact fun htake => hchar hle htake

/-! ### Concrete descriptor tables used as test fixtures -/

/-- A table entry named `"foobar"`. -/
def fooEntry : PropertyInfo Unit := .mk [102, 111, 111, 98, 97, 114] id none

/-- A structural `TypeInfo` whose only entry is named `"foobar"`. -/
def fooTypeInfo : TypeInfo Unit := TypeInfo.structural [fooEntry]

/-- C1, counterexample.  The claim says the query `"foo"` with length 3 must
not match a stored entry named `"foobar"` (so the lookup should return
none); the code's `strncmp(name, prop->name, 3)` compares only the first 3
bytes and *does* return that entry. -/
theorem c1_counterexample :
    (fooTypeInfo.get_property_info [102, 111, 111] 3).isSome = true := rfl

/-- C1, amended.  `TypeInfo::get_property_info` returns the first table
entry whose stored name has the query's first `length` bytes as a prefix
(so a query may match a longer stored name, while a query longer than a
stored name never matches it); it returns none if no entry matches or the
table is empty.  Stated for any query whose first `length` bytes exist and
are non-null, which holds for every token `get_child` produces. -/
theorem c1_prefix_match (t : TypeInfo W) (q : List Byte) (n : Nat)
    (hlen : n ≤ q.length) (hq : ∀ b ∈ q.take n, b ≠ 0) :
    t.get_property_info q n =
      t.property_table.find?
        (fun p => decide (n ≤ p.name.length) && (q.take n == p.name.take n)) :=
  scanPropertyTable_eq_find t.property_table q n hlen hq

/-- Witness for C1 (amended), at the `"foobar"` table with query `"foo"`. -/
theorem c1_prefix_match_witness :
    fooTypeInfo.get_property_info [102, 111, 111] 3 =
      fooTypeInfo.property_table.find?
        (fun p => decide (3 ≤ p.name.length) && ([102, 111, 111].take 3 == p.name.take 3)) :=
  c1_prefix_match fooTypeInfo [102, 111, 111] 3 (by decide) (by decide)

/-- C9.  A lookup with length 0 (an empty query token) returns the first
entry of a non-empty property table rather than none, because
`strncmp(name, prop->name, 0)` is 0 for any stored name. -/
theorem c9_zero_length_matches_first (p : PropertyInfo W) (ps : List (PropertyInfo W))
    (q : List Byte) (gh sh : Storage → List Byte → Nat → W → Bool × W) :
    (TypeInfo.mk (p :: ps) gh sh).get_property_info q 0 = some p := rfl

/-- C7.  `get_child` on an empty path — zero length, or a path whose first
byte is the null terminator — returns a handle structurally equal to the
receiver (same storage bytes, same `TypeInfo` pointer): the loop body never
executes. -/
theorem c7_empty_path_identity (h : Introspectable W) (path : List Byte) (len : Nat)
    (hemp : len = 0 ∨ path.head? = some 0) : h.get_child path len = h := by
  have hlog : logicalPath path len = [] := by
    rcases hemp with h0 | h0
    · simp [logicalPath, h0]
    · cases path with
      | nil => simp [logicalPath]
      | cons b p' =>
        simp only [List.head?_cons, Option.some.injEq] at h0
        cases len with
        | zero => simp [logicalPath]
        | succ m => simp [logicalPath, List.take_succ_cons, h0]
  rw [Introspectable.get_child, Introspectable.get_child_traced, hlog, get_child_loop_nil]

/-- Witness for C7 at a concrete valid handle and the empty path. -/
theorem c7_empty_path_identity_witness :
    Introspectable.get_child ⟨[], some fooTypeInfo⟩ [] 0 = ⟨[], some fooTypeInfo⟩ :=
  c7_empty_path_identity ⟨[], some fooTypeInfo⟩ [] 0 (Or.inl rfl)

/-- C10.  Invalidity is absorbing: `get_child` on an invalid handle returns
the receiver unchanged (same storage bytes, `TypeInfo` pointer still none)
for every path and length, and its trace is empty — no table lookup is
performed and no getter is invoked. -/
theorem c10_invalid_absorbing (h : Introspectable W) (path : List Byte) (len : Nat)
    (hinv : h.type_info = none) : h.get_child_traced path len = (h, []) :=
  get_child_loop_invalid h (logicalPath path len) hinv

/-- Witness for C10: an invalid handle with a non-trivial path. -/
theorem c10_invalid_absorbing_witness :
    Introspectable.get_child_traced (W := Unit) ⟨[5], none⟩ [97, 46, 98] 3 = (⟨[5], none⟩, []) :=
  c10_invalid_absorbing ⟨[5], none⟩ [97, 46, 98] 3 rfl

/-- C6.  `get_string` and `set_string` on an invalid handle return false
with the world untouched — the `type_info_` null check short-circuits
before any virtual hook could be consulted — and `set_string` on a
structural node (a plain `TypeInfo` with the default hooks) returns false
and leaves the world unchanged: no partial write ever reaches an
underlying value. -/
theorem c6_invalid_and_structural_reject (h : Introspectable W) (buffer : List Byte)
    (len : Nat) (w : W) (table : List (PropertyInfo W)) :
    (h.type_info = none →
      h.get_string buffer len w = (false, w) ∧ h.set_string buffer len w = (false, w)) ∧
    (h.type_info = some (TypeInfo.structural table) →
      h.set_string buffer len w = (false, w)) := by
  constructor
  · intro hinv
    constructor <;>
      simp [Introspectable.get_string, Introspectable.set_string, hinv]
  · intro hstruct
    simp [Introspectable.set_string, hstruct, TypeInfo.structural,
      TypeInfo.set_string_hook, defaultStringHook]

/-- Witness for C6: a concrete invalid handle and a concrete structural
handle. -/
theorem c6_invalid_and_structural_reject_witness :
    Introspectable.set_string (W := Nat) ⟨[], none⟩ [1, 2] 2 7 = (false, 7) ∧
    Introspectable.set_string (W := Nat) ⟨[], some (TypeInfo.structural [])⟩ [1, 2] 2 7 =
      (false, 7) :=
  ⟨((c6_invalid_and_structural_reject ⟨[], none⟩ [1, 2] 2 7 []).1 rfl).2,
    (c6_invalid_and_structural_reject ⟨[], some (TypeInfo.structural [])⟩ [1, 2] 2 7 []).2 rfl⟩

/-- C5.  `FibrePropertyTypeInfo<Property<T>>::set_string` first parses the
buffer into a temporary of the enum-normalized underlying type; on parse
failure it returns false and the wrapped property value (the world) is
unchanged; on success it writes `static_cast<T>(value)` via the property's
`exchange` and returns true. -/
theorem c5_set_string_parse_then_exchange {U V : Type}
    (ts : U → List Byte → Nat → Bool) (fs : List Byte → Nat → Option U)
    (toU : V → U) (cast : U → V) (s : Storage) (buffer : List Byte) (len : Nat) (v : V) :
    (fs buffer len = none →
      Introspectable.set_string ⟨s, some (FibrePropertyTypeInfoRW ts fs toU cast)⟩
        buffer len v = (false, v)) ∧
    (∀ u, fs buffer len = some u →
      Introspectable.set_string ⟨s, some (FibrePropertyTypeInfoRW ts fs toU cast)⟩
        buffer len v = (true, cast u)) := by
  constructor
  · intro hnone
    simp [Introspectable.set_string, FibrePropertyTypeInfoRW, TypeInfo.set_string_hook,
      rwSetStringHook, hnone]
  · intro u hsome
    simp [Introspectable.set_string, FibrePropertyTypeInfoRW, TypeInfo.set_string_hook,
      rwSetStringHook, hsome]

/-- Witness for C5: a parser reading the first buffer byte — it fails on an
empty buffer (no mutation) and succeeds on `[9]` (the value is exchanged). -/
theorem c5_set_string_parse_then_exchange_witness :
    Introspectable.set_string
        ⟨[], some (FibrePropertyTypeInfoRW (fun (_ : Nat) _ _ => false)
          (fun b _ => b.head?) id id)⟩ [] 0 (3 : Nat) = (false, 3) ∧
    Introspectable.set_string
        ⟨[], some (FibrePropertyTypeInfoRW (fun (_ : Nat) _ _ => false)
          (fun b _ => b.head?) id id)⟩ [9] 1 (3 : Nat) = (true, 9) :=
  ⟨(c5_set_string_parse_then_exchange (fun _ _ _ => false) (fun b _ => b.head?)
      id id [] [] 0 3).1 rfl,
    (c5_set_string_parse_then_exchange (fun _ _ _ => false) (fun b _ => b.head?)
      id id [] [9] 1 3).2 9 rfl⟩

/-- The byte range the traversal works on is the path cut at the first null
byte or at the length bound, whichever comes first. -/
theorem logicalPath_eq_take_min (path : List Byte) (len : Nat) :
    logicalPath path len = path.take (min (path.findIdx (fun b => b == 0)) len) := by
  induction path generalizing len with
  | nil => simp [logicalPath]
  | cons a p' ih =>
    cases len with
    | zero => simp [logicalPath]
    | succ m =>
      by_cases ha : a = 0
      · subst ha
        simp [logicalPath, List.take_succ_cons, List.findIdx_cons]
      · have ha0 : (a == 0) = false := by simpa using ha
        have hfi : (a :: p').findIdx (fun b => b == 0) = p'.findIdx (fun b => b == 0) + 1 := by
          simp [List.findIdx_cons, ha0]
        have ihm := ih m
        rw [logicalPath] at ihm ⊢
        simp only [List.take_succ_cons, hfi, Nat.succ_min_succ]
        rw [List.takeWhile_cons_of_pos (p := fun b => b != 0) (by simpa using ha), ihm]

/-- C8.  `get_child` determines the logical end of the path as the smaller
of the first null byte's position and the given length, and the traversal
depends only on the bytes before that logical end: two buffers agreeing on
their logical prefixes produce identical traversals (same handle, same
lookups, same getter invocations), however malformed the rest is. -/
theorem c8_logical_end_bound (h : Introspectable W) (path : List Byte) (len : Nat)
    (path' : List Byte) (len' : Nat)
    (heq : logicalPath path' len' = logicalPath path len) :
    logicalPath path len = path.take (min (path.findIdx (fun b => b == 0)) len) ∧
    h.get_child_traced path' len' = h.get_child_traced path len := by
  refine ⟨logicalPath_eq_take_min path len, ?_⟩
  rw [Introspectable.get_child_traced, Introspectable.get_child_traced, heq]

/-- Witness for C8: `[97, 0, 98]` bounded at 2 and `[97, 0, 99]` bounded at
3 share the logical prefix `[97]`, so the traversal cannot tell them
apart. -/
theorem c8_logical_end_bound_witness :
    logicalPath [97, 0, 98] 2 = [97, 0, 98].take (min ([97, 0, 98].findIdx (fun b => b == 0)) 2) ∧
    Introspectable.get_child_traced (W := Unit) ⟨[], some fooTypeInfo⟩ [97, 0, 99] 3 =
      Introspectable.get_child_traced ⟨[], some fooTypeInfo⟩ [97, 0, 98] 2 :=
  c8_logical_end_bound ⟨[], some fooTypeInfo⟩ [97, 0, 98] 2 [97, 0, 99] 3 (by decide)

/-! ### Facts about the token split -/

/-- If `dropWhile` of the not-a-separator predicate is non-empty, its head
is the separator byte `'.'`. -/
theorem sep_of_dropWhile_eq_cons :
    ∀ (l : List Byte) (c : Byte) (dw : List Byte),
      l.dropWhile (fun x => x != 46) = c :: dw → c = 46
  | [], c, dw, h => by simp [List.dropWhile] at h
  | a :: l', c, dw, h => by
    by_cases ha : (a != 46) = true
    · rw [List.dropWhile_cons_of_pos (p := fun x => x != 46) ha] at h
      exact sep_of_dropWhile_eq_cons l' c dw h
    · rw [List.dropWhile_cons_of_neg (p := fun x => x != 46) ha] at h
      injection h with h1 h2
      simp at ha
      rw [← h1]
      exact ha

/-- `takeWhile` and `dropWhile` split the length. -/
theorem takeWhile_dropWhile_length (p : Byte → Bool) (l : List Byte) :
    (l.takeWhile p).length + (l.dropWhile p).length = l.length := by
  conv_rhs => rw [← List.takeWhile_append_dropWhile p l]
  rw [List.length_append]

/-- A nonempty-remainder version of the loop unfolding. -/
theorem get_child_loop_ne_nil (current : Introspectable W) (t : TypeInfo W)
    (r : List Byte) (hr : r ≠ []) (hc : current.type_info = some t) :
    get_child_loop current r =
      ((get_child_loop (traverseStep current t (r.takeWhile (fun c => c != 46))).1
          ((r.dropWhile (fun c => c != 46)).tail)).1,
        (traverseStep current t (r.takeWhile (fun c => c != 46))).2 ++
          (get_child_loop (traverseStep current t (r.takeWhile (fun c => c != 46))).1
            ((r.dropWhile (fun c => c != 46)).tail)).2) := by
  cases r with
  | nil => exact absurd rfl hr
  | cons b bs => exact get_child_loop_cons current t b bs hc

/-- Appending a single separator to a remainder that is non-empty and does
not already end in a separator does not change the loop's behavior: the
final token is terminated by the appended `'.'` instead of by the end of
the range, and the cursor then jumps to the end
(`begin = std::min(end, end_of_token + 1)`), so no empty token is ever
produced. -/
theorem get_child_loop_append_dot :
    ∀ (n : Nat) (r : List Byte), r.length ≤ n → r ≠ [] → r.getLast? ≠ some 46 →
    ∀ (s : Introspectable W), get_child_loop s (r ++ [46]) = get_child_loop s r := by
  intro n
  induction n with
  | zero =>
    intro r hlen hne _ _
    exact absurd (List.length_eq_zero.mp (Nat.le_zero.mp hlen)) hne
  | succ n ih =>
    intro r hlen hne hlast s
    have hsplit := List.takeWhile_append_dropWhile (fun c => c != 46) r
    cases hs : s.type_info with
    | none =>
      rw [get_child_loop_invalid s _ hs, get_child_loop_invalid s _ hs]
    | some t =>
      cases hdw : r.dropWhile (fun c => c != 46) with
      | nil =>
        have hall : ∀ a ∈ r, (fun c : Byte => c != 46) a = true := by
          intro a hmem
          rw [hdw, List.append_nil] at hsplit
          rw [← hsplit] at hmem
          exact List.mem_takeWhile_imp (p := fun c => c != 46) hmem
        have htk : r.takeWhile (fun c => c != 46) = r := by
          rw [hdw, List.append_nil] at hsplit
          exact hsplit
        rw [get_child_loop_ne_nil s t (r ++ [46]) (by simp [hne]) hs,
          get_child_loop_ne_nil s t r hne hs]
        rw [List.takeWhile_append_of_pos hall, List.dropWhile_append_of_pos hall,
          htk, hdw]
        have h1 : List.takeWhile (fun c : Byte => c != 46) [46] = [] := by simp
        have h2 : List.dropWhile (fun c : Byte => c != 46) [46] = [46] := by simp
        rw [h1, h2, List.append_nil]
        rfl
      | cons c dw' =>
        have hc : c = 46 := sep_of_dropWhile_eq_cons r c dw' hdw
        subst hc
        have hlensplit := takeWhile_dropWhile_length (fun c => c != 46) r
        rw [hdw] at hlensplit
        simp only [List.length_cons] at hlensplit
        have htklt : (r.takeWhile (fun c => c != 46)).length < r.length := by omega
        have htk : (r ++ [46]).takeWhile (fun c => c != 46) =
            r.takeWhile (fun c => c != 46) := by
          rw [List.takeWhile_append, if_neg (by omega)]
        have hdrop : (r ++ [46]).dropWhile (fun c => c != 46) =
            (46 :: dw') ++ [46] := by
          rw [List.dropWhile_append, hdw]
          simp
        rw [get_child_loop_ne_nil s t (r ++ [46]) (by simp [hne]) hs,
          get_child_loop_ne_nil s t r hne hs, htk, hdrop, hdw]
        simp only [List.cons_append, List.tail_cons]
        cases dw' with
        | nil =>
          exfalso
          apply hlast
          rw [← hsplit, hdw]
          exact List.getLast?_concat _
        | cons d ds =>
          have hlast' : (d :: ds).getLast? ≠ some 46 := by
            intro hcontra
            apply hlast
            rw [← hsplit, hdw, List.getLast?_append]
            rw [List.getLast?_cons_cons, hcontra]
            rfl
          rw [ih (d :: ds) (by omega) (by simp) hlast']

/-- A leaf-like structural `TypeInfo` with an empty table. -/
def leafT : TypeInfo Unit := TypeInfo.structural []

/-- A table entry named `"a"` leading to `leafT`. -/
def aEntry : PropertyInfo Unit := .mk [97] id (some leafT)

/-- A structural root type with the single entry `"a"`. -/
def rootBT : TypeInfo Unit := TypeInfo.structural [aEntry]

/-- A valid handle at `rootBT`. -/
def rootB : Introspectable Unit := ⟨[], some rootBT⟩

/-- C4, counterexample.  The claim says a trailing `'.'` produces an empty
final token whose lookup fails, so `get_child("a.")` should be invalid; in
the code `begin = std::min(end, end_of_token + 1)` jumps past the trailing
separator to the end, no empty token is produced, and the result is the
valid child registered under `"a"`. -/
theorem c4_counterexample : (rootB.get_child [97, 46] 2).is_valid = true := by
  show (get_child_loop rootB [97, 46]).1.is_valid = true
  rw [get_child_loop_cons rootB rootBT 97 [46] rfl]
  show (get_child_loop (⟨[], some leafT⟩ : Introspectable Unit) []).1.is_valid = true
  rw [get_child_loop_nil]
  rfl

/-- C4, amended.  A trailing `'.'` with nothing after it is consumed
together with the final token: the cursor advances past it to the logical
end and the loop exits, so no empty final token is produced or looked up,
and `get_child` (handle and trace alike) behaves exactly as on the same
path without the trailing dot.  Stated for any non-empty null-free path
not already ending in a separator. -/
theorem c4_trailing_dot_absorbed (h : Introspectable W) (p : List Byte)
    (hne : p ≠ []) (hnn : ∀ b ∈ p, b ≠ 0) (hlast : p.getLast? ≠ some 46) :
    h.get_child_traced (p ++ [46]) (p.length + 1) = h.get_child_traced p p.length := by
  rw [Introspectable.get_child_traced, Introspectable.get_child_traced,
    logicalPath_self p hnn]
  have hlog : logicalPath (p ++ [46]) (p.length + 1) = p ++ [46] := by
    have hlen : (p ++ [46]).length = p.length + 1 := by simp
    rw [← hlen, logicalPath_self]
    intro b hb
    rcases List.mem_append.mp hb with h1 | h1
    · exact hnn b h1
    · simp at h1
      subst h1
      decide
  rw [hlog]
  exact get_child_loop_append_dot p.length p (le_refl _) hne hlast h

/-- Witness for C4 (amended): `"a."` traverses exactly like `"a"`. -/
theorem c4_trailing_dot_absorbed_witness :
    Introspectable.get_child_traced rootB [97, 46] 2 =
      Introspectable.get_child_traced rootB [97] 1 :=
  c4_trailing_dot_absorbed rootB [97] (by decide) (by decide) (by decide)

/-- Splitting a traversal at a token boundary: if the consumed prefix ends
with a separator, running the loop on `pre ++ X` is running it on `pre` and
continuing from the reached handle on `X`, with the traces concatenated. -/
theorem get_child_loop_append_sep :
    ∀ (n : Nat) (pre : List Byte), pre.length ≤ n → pre.getLast? = some 46 →
    ∀ (s : Introspectable W) (X : List Byte),
      get_child_loop s (pre ++ X) =
        ((get_child_loop (get_child_loop s pre).1 X).1,
          (get_child_loop s pre).2 ++ (get_child_loop (get_child_loop s pre).1 X).2) := by
  intro n
  induction n with
  | zero =>
    intro pre hlen hlast s X
    have hnil : pre = [] := List.length_eq_zero.mp (Nat.le_zero.mp hlen)
    subst hnil
    simp at hlast
  | succ n ih =>
    intro pre hlen hlast s X
    have hne : pre ≠ [] := by
      intro hcon
      subst hcon
      simp at hlast
    have hsplit := List.takeWhile_append_dropWhile (fun c => c != 46) pre
    cases hs : s.type_info with
    | none =>
      simp [get_child_loop_invalid s (pre ++ X) hs, get_child_loop_invalid s pre hs,
        get_child_loop_invalid s X hs]
    | some t =>
      cases hdw : pre.dropWhile (fun c => c != 46) with
      | nil =>
        exfalso
        rw [hdw, List.append_nil] at hsplit
        have h46 : (46 : Byte) ∈ pre := List.mem_of_getLast?_eq_some hlast
        rw [← hsplit] at h46
        have hmem := List.mem_takeWhile_imp (p := fun c => c != 46) h46
        simp at hmem
      | cons c dw' =>
        have hc : c = 46 := sep_of_dropWhile_eq_cons pre c dw' hdw
        subst hc
        have hlensplit := takeWhile_dropWhile_length (fun c => c != 46) pre
        rw [hdw] at hlensplit
        simp only [List.length_cons] at hlensplit
        have htklt : (pre.takeWhile (fun c => c != 46)).length < pre.length := by omega
        have htk : (pre ++ X).takeWhile (fun c => c != 46) =
            pre.takeWhile (fun c => c != 46) := by
          rw [List.takeWhile_append, if_neg (by omega)]
        have hdrop : (pre ++ X).dropWhile (fun c => c != 46) = (46 :: dw') ++ X := by
          rw [List.dropWhile_append, hdw]
          simp
        rw [get_child_loop_ne_nil s t (pre ++ X) (by simp [hne]) hs,
          get_child_loop_ne_nil s t pre hne hs, htk, hdrop, hdw]
        simp only [List.cons_append, List.tail_cons]
        cases dw' with
        | nil =>
          rw [List.nil_append, get_child_loop_nil]
          simp
        | cons d ds =>
          have hlast' : (d :: ds).getLast? = some 46 := by
            rw [← hsplit, hdw, List.getLast?_append, List.getLast?_cons_cons] at hlast
            cases hgl : (d :: ds).getLast? with
            | none =>
              rw [List.getLast?_eq_none_iff] at hgl
              cases hgl
            | some v =>
              rw [hgl] at hlast
              calc some v
                  = (some v).or ((pre.takeWhile (fun c => c != 46)).getLast?) := rfl
                _ = some 46 := hlast
          rw [ih (d :: ds) (by omega) hlast']
          simp [List.append_assoc]

/-- At a failed lookup the loop invalidates the handle and exits: whatever
bytes follow the failing token, the only event of the remaining traversal
is that single failed lookup. -/
theorem get_child_loop_fail (h : Introspectable W) (t : TypeInfo W)
    (ht : h.type_info = some t) (fail rest : List Byte) (hfne : fail ≠ [])
    (hfb : ∀ b ∈ fail, (b != 46) = true)
    (hrest : rest = [] ∨ ∃ r', rest = 46 :: r')
    (hfail : t.get_property_info fail fail.length = none) :
    get_child_loop h (fail ++ rest) = (⟨h.storage, none⟩, [TraceEvent.lookup fail]) := by
  have htk : (fail ++ rest).takeWhile (fun c => c != 46) = fail := by
    rw [List.takeWhile_append_of_pos hfb]
    rcases hrest with hr | ⟨r', hr⟩ <;> subst hr
    · simp
    · rw [List.takeWhile_cons_of_neg (p := fun c => c != 46) (by simp)]
      simp
  have hdr : ((fail ++ rest).dropWhile (fun c => c != 46)).tail = rest.tail := by
    rw [List.dropWhile_append_of_pos hfb]
    rcases hrest with hr | ⟨r', hr⟩ <;> subst hr
    · simp
    · rw [List.dropWhile_cons_of_neg (p := fun c => c != 46) (by simp)]
  rw [get_child_loop_ne_nil h t (fail ++ rest) (by simp [hfne]) ht, htk, hdr]
  have hstep : traverseStep h t fail = (⟨h.storage, none⟩, [TraceEvent.lookup fail]) := by
    simp only [traverseStep, hfail]
  rw [hstep]
  show ((get_child_loop (⟨h.storage, none⟩ : Introspectable W) rest.tail).1,
      [TraceEvent.lookup fail] ++
        (get_child_loop (⟨h.storage, none⟩ : Introspectable W) rest.tail).2) = _
  rw [get_child_loop_invalid _ rest.tail rfl]
  rfl

/-- C2.  If the traversal has consumed a (possibly empty) separator-closed
prefix of the path and reached the handle `h`, and the next segment is not
registered in the `TypeInfo` table reached there, then `get_child` returns
an invalid handle carrying `h`'s storage bytes, regardless of what follows
that segment; the trace shows that the only event after the consumed prefix
is the one failed lookup — no later token is looked up and no later getter
is invoked. -/
theorem c2_failed_segment_stops_traversal (s : Introspectable W)
    (pre fail rest : List Byte) (h : Introspectable W) (tr : List TraceEvent)
    (t : TypeInfo W)
    (hpre : pre = [] ∨ pre.getLast? = some 46)
    (hpre0 : ∀ b ∈ pre, b ≠ 0)
    (hmid : s.get_child_traced pre pre.length = (h, tr))
    (ht : h.type_info = some t)
    (hfne : fail ≠ []) (hfb : ∀ b ∈ fail, b ≠ 0 ∧ b ≠ 46)
    (hrest : rest = [] ∨ ∃ r', rest = 46 :: r')
    (hfail : t.get_property_info fail fail.length = none) :
    s.get_child_traced (pre ++ fail ++ rest) (pre ++ fail ++ rest).length =
      (⟨h.storage, none⟩, tr ++ [TraceEvent.lookup fail]) := by
  have hfb46 : ∀ b ∈ fail, (b != 46) = true := fun b hb => by simpa using (hfb b hb).2
  have hfb0 : ∀ b ∈ fail, (b != 0) = true := fun b hb => by simpa using (hfb b hb).1
  have hpre0' : ∀ b ∈ pre, (b != 0) = true := fun b hb => by simpa using hpre0 b hb
  have hlog : logicalPath (pre ++ fail ++ rest) (pre ++ fail ++ rest).length =
      pre ++ (fail ++ rest.takeWhile (fun b => b != 0)) := by
    rw [logicalPath, List.take_length, List.append_assoc,
      List.takeWhile_append_of_pos hpre0', List.takeWhile_append_of_pos hfb0]
  have hmid' : get_child_loop s pre = (h, tr) := by
    rw [Introspectable.get_child_traced, logicalPath_self pre hpre0] at hmid
    exact hmid
  have hrest0 : rest.takeWhile (fun b => b != 0) = [] ∨
      ∃ r', rest.takeWhile (fun b => b != 0) = 46 :: r' := by
    rcases hrest with hr | ⟨r', hr⟩ <;> subst hr
    · left; simp
    · right
      rw [List.takeWhile_cons_of_pos (p := fun b => b != 0) (by simp)]
      exact ⟨_, rfl⟩
  have hfailstep := get_child_loop_fail h t ht fail (rest.takeWhile (fun b => b != 0))
    hfne hfb46 hrest0 hfail
  rw [Introspectable.get_child_traced, hlog]
  rcases hpre with hp | hp
  · subst hp
    rw [get_child_loop_nil] at hmid'
    injection hmid' with h1 h2
    subst h1
    rw [List.nil_append, hfailstep, ← h2]
    rfl
  · rw [get_child_loop_append_sep pre.length pre (le_refl _) hp s
      (fail ++ rest.takeWhile (fun b => b != 0)), hmid',
      show ((h, tr).1 : Introspectable W) = h from rfl,
      show ((h, tr).2 : List TraceEvent) = tr from rfl, hfailstep]

/-- Witness for C2: at the root table (only entry `"a"`), the segment
`"b"` fails; the path `"b.c"` yields an invalid handle and a trace showing
only the one failed lookup, with `"c"` never examined. -/
theorem c2_failed_segment_stops_traversal_witness :
    Introspectable.get_child_traced rootB [98, 46, 99] 3 =
      (⟨[], none⟩, [TraceEvent.lookup [98]]) := by
  have hmid : rootB.get_child_traced [] 0 = (rootB, []) := by
    show get_child_loop rootB [] = (rootB, [])
    exact get_child_loop_nil rootB
  exact c2_failed_segment_stops_traversal rootB [] [98] [46, 99] rootB [] rootBT
    (Or.inl rfl) (by decide) hmid rfl (by decide) (by decide)
    (Or.inr ⟨[99], rfl⟩) rfl

/-- Leaf type at depth three for the `"a..b"` counterexample. -/
def tD : TypeInfo Unit := TypeInfo.structural []

/-- Type with entry `"b"` leading to `tD`. -/
def tC : TypeInfo Unit := TypeInfo.structural [.mk [98] id (some tD)]

/-- Type with entry `"b"` leading to `tC`. -/
def tB : TypeInfo Unit := TypeInfo.structural [.mk [98] id (some tC)]

/-- Root type with entry `"a"` leading to `tB`. -/
def rootABT : TypeInfo Unit := TypeInfo.structural [.mk [97] id (some tB)]

/-- A valid handle at `rootABT`. -/
def rootAB : Introspectable Unit := ⟨[], some rootABT⟩

/-- C3, counterexample.  The claim says the empty token inside `"a..b"`
fails the lookup, invalidating the handle.  In the code the empty token is
looked up with length 0, `strncmp(.., .., 0)` is 0 for the very first
entry, so traversal descends through that entry and here ends at a valid
handle. -/
theorem c3_counterexample : (rootAB.get_child [97, 46, 46, 98] 4).is_valid = true := by
  show (get_child_loop rootAB [97, 46, 46, 98]).1.is_valid = true
  rw [get_child_loop_cons rootAB rootABT 97 [46, 46, 98] rfl]
  show (get_child_loop (⟨[], some tB⟩ : Introspectable Unit) [46, 98]).1.is_valid = true
  rw [get_child_loop_cons _ tB 46 [98] rfl]
  show (get_child_loop (⟨[], some tC⟩ : Introspectable Unit) [98]).1.is_valid = true
  rw [get_child_loop_cons _ tC 98 [] rfl]
  show (get_child_loop (⟨[], some tD⟩ : Introspectable Unit) []).1.is_valid = true
  rw [get_child_loop_nil]
  rfl

/-- C3, amended.  An empty intermediate token (as produced between two
consecutive separators) is looked up with length 0, and for a handle whose
current `TypeInfo` has a non-empty property table that zero-length
comparison matches the table's *first* entry: the traversal runs that
entry's getter and descends through it, rather than invalidating the
handle; only an empty table makes the lookup fail. -/
theorem c3_empty_token_matches_first_entry (h : Introspectable W) (t : TypeInfo W)
    (p0 : PropertyInfo W) (ps : List (PropertyInfo W)) (rest : List Byte)
    (ht : h.type_info = some t) (htab : t.property_table = p0 :: ps)
    (hrest : ∀ b ∈ rest, b ≠ 0) :
    h.get_child_traced (46 :: rest) (rest.length + 1) =
      ((Introspectable.get_child_traced ⟨p0.getter h.storage, p0.type_info⟩
          rest rest.length).1,
        TraceEvent.lookup [] :: TraceEvent.getterRun [] ::
          (Introspectable.get_child_traced ⟨p0.getter h.storage, p0.type_info⟩
            rest rest.length).2) := by
  have hlog : logicalPath (46 :: rest) (rest.length + 1) = 46 :: rest := by
    have hlen : (46 :: rest).length = rest.length + 1 := by simp
    rw [← hlen, logicalPath_self]
    intro b hb
    rcases List.mem_cons.mp hb with h1 | h1
    · subst h1; decide
    · exact hrest b h1
  rw [Introspectable.get_child_traced, hlog, get_child_loop_cons h t 46 rest ht]
  have htok : (46 :: rest).takeWhile (fun c => c != 46) = [] := by
    rw [List.takeWhile_cons_of_neg (p := fun c => c != 46) (by simp)]
  have hdw : ((46 :: rest).dropWhile (fun c => c != 46)).tail = rest := by
    rw [List.dropWhile_cons_of_neg (p := fun c => c != 46) (by simp)]
    rfl
  rw [htok, hdw]
  have hlk : t.get_property_info ([] : List Byte) (List.length ([] : List Byte)) =
      some p0 := by
    show scanPropertyTable t.property_table [] 0 = some p0
    rw [htab]
    rfl
  have hstep : traverseStep h t [] = (⟨p0.getter h.storage, p0.type_info⟩,
      [TraceEvent.lookup [], TraceEvent.getterRun []]) := by
    simp only [traverseStep]
    rw [hlk]
  rw [hstep, Introspectable.get_child_traced, logicalPath_self rest hrest]
  rfl

/-- Witness for C3 (amended): at a handle whose table's first entry is
`"a"`, the path `"."` descends through that entry. -/
theorem c3_empty_token_matches_first_entry_witness :
    Introspectable.get_child_traced rootB [46] 1 =
      (⟨[], some leafT⟩, [TraceEvent.lookup [], TraceEvent.getterRun []]) := by
  have hnil : Introspectable.get_child_traced (W := Unit) ⟨[], some leafT⟩ [] 0 =
      (⟨[], some leafT⟩, []) := by
    show get_child_loop (⟨[], some leafT⟩ : Introspectable Unit) [] = _
    exact get_child_loop_nil _
  have h2 : ((Introspectable.get_child_traced (W := Unit) ⟨[], some leafT⟩ [] 0).1,
      TraceEvent.lookup [] :: TraceEvent.getterRun [] ::
        (Introspectable.get_child_traced (W := Unit) ⟨[], some leafT⟩ [] 0).2) =
      ((⟨[], some leafT⟩ : Introspectable Unit),
        [TraceEvent.lookup [], TraceEvent.getterRun []]) := by
    rw [hnil]
  exact (c3_empty_token_matches_first_entry rootB rootBT aEntry [] []
    rfl rfl (by decide)).trans h2

end FibreIntrospection
